import Mathlib

/-!
# Verification of `rs_merkle_tree` (`src/merkle_tree.rs`)

Shallow embedding of the Merkle-tree builder in `src/merkle_tree.rs`.

Modelling conventions:

* The `Digest` trait (reset / input / result_str) is modelled by `Hasher`:
  a deterministic digest function `digest : List Nat → String` (bytes in,
  lowercase-hex string out, as `result_str` produces) together with the
  byte buffer `buf` absorbed since the last `reset`.  Every use in the
  source calls `reset` first, so a digest that is a pure function of the
  bytes absorbed since the last reset is an exact model of the code's use
  of the trait.
* The `AsBytes` trait is a parameter `bytes : T → List Nat`; for the hash
  strings themselves `String::as_bytes` is UTF-8, modelled by `strBytes`.
* `Vec<T>` is `List T`, byte slices are `List Nat`.
* `Result<Self, &'static str>` is `Except String _`.
* An out-of-bounds index (`pairs[1]` in `build_parent_nodes` when a chunk
  has a single element) is a Rust panic; fallible evaluation is modelled
  by `Option`, with `none` marking the panic.
* `from_leaves` takes `&mut Vec<T>`: the padding mutates the caller's
  vector, so the embedding returns the final state of that vector
  alongside the `Result`.
-/

/-- UTF-8 bytes of a string, as `str::as_bytes` produces them.  This is
the byte list underlying `String.toUTF8` (which is
`⟨⟨s.data.flatMap utf8EncodeChar⟩⟩`), unfolded so that it computes by
structural recursion. -/
def strBytes (s : String) : List Nat :=
  (s.data.flatMap String.utf8EncodeChar).map (fun b => b.toNat)

/-- Model of the `crypto::digest::Digest` trait object: a deterministic
digest function plus the bytes absorbed since the last `reset`. -/
structure Hasher where
  digest : List Nat → String
  buf : List Nat

/-- `Digest::reset`: clear the absorbed input. -/
def Hasher.reset (h : Hasher) : Hasher :=
  { h with buf := [] }

/-- `Digest::input`: absorb more bytes. -/
def Hasher.inputBytes (h : Hasher) (bs : List Nat) : Hasher :=
  { h with buf := h.buf ++ bs }

/-- `Digest::result_str`: the hex digest of everything absorbed since the
last reset. -/
def Hasher.result_str (h : Hasher) : String :=
  h.digest h.buf

/-- `Node<T>`: `value` is `Some` exactly on leaves, `hash` is the hex
digest string. -/
structure Node (T : Type) where
  value : Option T
  hash : String
deriving DecidableEq

/-- `MerkleTree<H, T>`: the hasher instance and the flat node store. -/
structure MerkleTree (T : Type) where
  hasher : Hasher
  nodes : List (Node T)

/-- `usize::next_power_of_two`: the smallest power of two that is `≥ n`
(`1` for `n ≤ 1`). -/
def next_power_of_two (n : Nat) : Nat :=
  if n ≤ 1 then 1 else 2 * next_power_of_two ((n + 1) / 2)
termination_by n
decreasing_by
  simp_wf
  omega

/-- `MerkleTree::root`: the last node of the store, or an error when the
store is empty. -/
def MerkleTree.root {T : Type} (t : MerkleTree T) : Except String (Node T) :=
  match t.nodes.getLast? with
  | some r => Except.ok r
  | none => Except.error "Error constructing merkle tree"

/-- `MerkleTree::as_leaf`: reset, absorb the value's bytes, finalize;
the node keeps a clone of the value. -/
def as_leaf {T : Type} (bytes : T → List Nat) (v : T) (hasher : Hasher) :
    Node T × Hasher :=
  let h1 := hasher.reset
  let h2 := h1.inputBytes (bytes v)
  let hash := h2.result_str
  (⟨some v, hash⟩, h2)

/-- `MerkleTree::as_internal`: reset, absorb the left child's hash bytes,
then the right child's, finalize; the node stores no value. -/
def as_internal {T : Type} (left right : Node T) (hasher : Hasher) :
    Node T × Hasher :=
  let h1 := hasher.reset
  let h2 := h1.inputBytes (strBytes left.hash)
  let h3 := h2.inputBytes (strBytes right.hash)
  let hash := h3.result_str
  (⟨none, hash⟩, h3)

/-- The `for pairs in children.chunks(2)` loop of `build_parent_nodes`:
one parent per chunk of two.  A chunk of one element makes `pairs[1]`
panic (`none`). -/
def build_level {T : Type} : List (Node T) → Hasher → Option (List (Node T) × Hasher)
  | [], hasher => some ([], hasher)
  | [_], _ => none
  | l :: r :: rest, hasher =>
    let p := as_internal l r hasher
    match build_level rest p.2 with
    | some (ps, h2) => some (p.1 :: ps, h2)
    | none => none

/-- Each successful level pass pairs the children exactly. -/
theorem build_level_length {T : Type} :
    ∀ {c : List (Node T)} {h : Hasher} {ps : List (Node T)} {h2 : Hasher},
      build_level c h = some (ps, h2) → c.length = 2 * ps.length
  | [], _, _, _ => by
    intro heq
    simp [build_level] at heq
    rw [heq.1]
    rfl
  | [_], _, _, _ => by
    intro heq
    simp [build_level] at heq
  | l :: r :: rest, h, ps, h2 => by
    intro heq
    simp only [build_level] at heq
    rcases hrec : build_level rest (as_internal l r h).2 with _ | pr
    · rw [hrec] at heq
      simp at heq
    · rw [hrec] at heq
      obtain ⟨ps', h2'⟩ := pr
      simp at heq
      have := build_level_length hrec
      simp [heq.1.symm]
      omega

/-- `MerkleTree::build_parent_nodes`: build one level, and while more
than one parent remains, recurse on that level, appending the recursive
output after it. -/
def build_parent_nodes {T : Type} (children : List (Node T)) (hasher : Hasher) :
    Option (List (Node T) × Hasher) :=
  match hbl : build_level children hasher with
  | none => none
  | some (parents, h1) =>
    if hgt : parents.length > 1 then
      match build_parent_nodes parents h1 with
      | none => none
      | some (newParents, h2) => some (parents ++ newParents, h2)
    else
      some (parents, h1)
termination_by children.length
decreasing_by
  have := build_level_length hbl
  omega

/-- The padding step of `from_leaves` (lines 53–60): when the length is
below the next power of two, extend with clones of the last element. -/
def padded_values {T : Type} (values : List T) : List T :=
  let n := next_power_of_two values.length
  if values.length < n then
    match values.getLast? with
    | some last =>
      values ++ List.replicate (next_power_of_two values.length - values.length) last
    | none => values
  else
    values

/-- The leaf-construction loop of `from_leaves` (lines 62–66): one
`as_leaf` per value, threading the hasher. -/
def build_leaves {T : Type} (bytes : T → List Nat) :
    List T → Hasher → List (Node T) × Hasher
  | [], hasher => ([], hasher)
  | v :: rest, hasher =>
    let p := as_leaf bytes v hasher
    let q := build_leaves bytes rest p.2
    (p.1 :: q.1, q.2)

/-- `MerkleTree::from_leaves`.  The second component of the result is the
final state of the caller's `&mut Vec<T>`; `none` is the panic of
`build_parent_nodes` propagating. -/
def from_leaves {T : Type} (bytes : T → List Nat) (values : List T)
    (hasher : Hasher) : Option (Except String (MerkleTree T) × List T) :=
  if values.length = 0 then
    some (Except.error "Leaves cannot be empty", values)
  else
    let padded := padded_values values
    let leaves := build_leaves bytes padded hasher
    match build_parent_nodes leaves.1 leaves.2 with
    | none => none
    | some (parents, h2) =>
      some (Except.ok ⟨h2, leaves.1 ++ parents⟩, padded)

/-! ## Unfolding and small-value lemmas -/

/-- Non-dependent unfolding of `build_parent_nodes`. -/
theorem build_parent_nodes_eq {T : Type} (children : List (Node T)) (hasher : Hasher) :
    build_parent_nodes children hasher =
      match build_level children hasher with
      | none => none
      | some (parents, h1) =>
        if parents.length > 1 then
          match build_parent_nodes parents h1 with
          | none => none
          | some (newParents, h2) => some (parents ++ newParents, h2)
        else
          some (parents, h1) := by
  rw [build_parent_nodes]
  rcases hb : build_level children hasher with _ | ⟨ps, h1⟩ <;> simp [hb]

theorem npot_one : next_power_of_two 1 = 1 := by
  rw [next_power_of_two]
  norm_num

theorem npot_two : next_power_of_two 2 = 2 := by
  rw [next_power_of_two]
  norm_num [npot_one]

theorem npot_three : next_power_of_two 3 = 4 := by
  rw [next_power_of_two]
  norm_num [npot_two]

/-! ## Properties of `next_power_of_two` -/

theorem npot_pos (n : Nat) : 1 ≤ next_power_of_two n := by
  induction n using Nat.strong_induction_on with
  | _ n ih =>
    rw [next_power_of_two]
    split
    · omega
    · rename_i hn
      have := ih ((n + 1) / 2) (by omega)
      omega

/-- `n ≤ n.next_power_of_two`. -/
theorem npot_ge (n : Nat) : n ≤ next_power_of_two n := by
  induction n using Nat.strong_induction_on with
  | _ n ih =>
    rw [next_power_of_two]
    split
    · omega
    · rename_i hn
      have := ih ((n + 1) / 2) (by omega)
      omega

/-- `next_power_of_two` returns a power of two. -/
theorem npot_pow (n : Nat) : ∃ k, next_power_of_two n = 2 ^ k := by
  induction n using Nat.strong_induction_on with
  | _ n ih =>
    rw [next_power_of_two]
    split
    · exact ⟨0, rfl⟩
    · rename_i hn
      obtain ⟨k, hk⟩ := ih ((n + 1) / 2) (by omega)
      exact ⟨k + 1, by rw [hk]; ring⟩

/-- A power of two is its own `next_power_of_two`. -/
theorem npot_pow_self (k : Nat) : next_power_of_two (2 ^ k) = 2 ^ k := by
  induction k with
  | zero => simpa using npot_one
  | succ k ih =>
    have h2 : 2 ^ (k + 1) = 2 * 2 ^ k := by ring
    have hk1 : 0 < 2 ^ k := pow_pos (by norm_num) k
    rw [next_power_of_two, if_neg (by omega)]
    have harg : (2 ^ (k + 1) + 1) / 2 = 2 ^ k := by omega
    rw [harg, ih, h2]

/-- `next_power_of_two n` is the least power of two that is `≥ n`. -/
theorem npot_min (n : Nat) : ∀ k, n ≤ 2 ^ k → next_power_of_two n ≤ 2 ^ k := by
  induction n using Nat.strong_induction_on with
  | _ n ih =>
    intro k hk
    rw [next_power_of_two]
    split
    · exact Nat.two_pow_pos k
    · rename_i hn
      cases k with
      | zero => simp at hk; omega
      | succ k =>
        have h2 : 2 ^ (k + 1) = 2 * 2 ^ k := by ring
        have := ih ((n + 1) / 2) (by omega) k (by omega)
        omega

/-! ## Characterizing one parent level -/

/-- The node `as_internal` produces: no value, and the digest of the two
children's hash strings' bytes, left then right. -/
def mkInternal {T : Type} (d : List Nat → String) (l r : Node T) : Node T :=
  ⟨none, d (strBytes l.hash ++ strBytes r.hash)⟩

/-- The node `as_leaf` produces: the value, and the digest of its bytes. -/
def mkLeaf {T : Type} (d : List Nat → String) (bytes : T → List Nat) (v : T) : Node T :=
  ⟨some v, d (bytes v)⟩

theorem as_internal_fst {T : Type} (l r : Node T) (h : Hasher) :
    (as_internal l r h).1 = mkInternal h.digest l r := rfl

theorem as_internal_snd_digest {T : Type} (l r : Node T) (h : Hasher) :
    (as_internal l r h).2.digest = h.digest := rfl

theorem as_leaf_fst {T : Type} (bytes : T → List Nat) (v : T) (h : Hasher) :
    (as_leaf bytes v h).1 = mkLeaf h.digest bytes v := rfl

/-- The level pass does not change the digest algorithm. -/
theorem build_level_digest {T : Type} :
    ∀ {c : List (Node T)} {h : Hasher} {ps : List (Node T)} {h2 : Hasher},
      build_level c h = some (ps, h2) → h2.digest = h.digest
  | [], _, _, _ => by
    intro heq
    simp [build_level] at heq
    rw [← heq.2]
  | [_], _, _, _ => by
    intro heq
    simp [build_level] at heq
  | l :: r :: rest, h, ps, h2 => by
    intro heq
    simp only [build_level] at heq
    rcases hrec : build_level rest (as_internal l r h).2 with _ | ⟨ps', h2'⟩
    · rw [hrec] at heq
      simp at heq
    · rw [hrec] at heq
      simp at heq
      have := build_level_digest hrec
      rw [← heq.2, this, as_internal_snd_digest]

/-- The `j`-th parent of a successful level pass combines children `2j`
and `2j + 1`, via the digest configured before the pass. -/
theorem build_level_get {T : Type} :
    ∀ {c : List (Node T)} {h : Hasher} {ps : List (Node T)} {h2 : Hasher},
      build_level c h = some (ps, h2) →
      ∀ j l r, c.get? (2 * j) = some l → c.get? (2 * j + 1) = some r →
        ps.get? j = some (mkInternal h.digest l r)
  | [], _, _, _ => by
    intro heq j l r hl _
    simp at hl
  | [_], _, _, _ => by
    intro heq
    simp [build_level] at heq
  | a :: b :: rest, h, ps, h2 => by
    intro heq j l r hl hr
    simp only [build_level] at heq
    rcases hrec : build_level rest (as_internal a b h).2 with _ | ⟨ps', h2'⟩
    · rw [hrec] at heq
      simp at heq
    · rw [hrec] at heq
      simp at heq
      cases j with
      | zero =>
        simp at hl hr
        rw [← heq.1, ← hl, ← hr]
        simp [List.get?, as_internal_fst]
      | succ j =>
        have e2 : 2 * (j + 1) = 2 * j + 1 + 1 := by ring
        rw [e2] at hl
        simp only [List.get?_cons_succ] at hl hr
        have := build_level_get hrec j l r hl hr
        rw [← heq.1]
        simpa [List.get?, as_internal_snd_digest] using this

/-- An even level always passes (`pairs[1]` stays in bounds). -/
theorem build_level_isSome {T : Type} :
    ∀ (c : List (Node T)) (h : Hasher), c.length % 2 = 0 →
      (build_level c h).isSome
  | [], _, _ => rfl
  | [_], _, hlen => by simp at hlen
  | a :: b :: rest, h, hlen => by
    simp only [build_level]
    have hres := build_level_isSome rest (as_internal a b h).2 (by simp at hlen; omega)
    rcases hrec : build_level rest (as_internal a b h).2 with _ | ⟨ps', h2'⟩
    · rw [hrec] at hres
      simp at hres
    · rfl

/-! ## Properties of the recursive parent construction -/

/-- A successful `build_parent_nodes` on `m ≥ 2` children appends
exactly `m - 1` nodes, and keeps the digest algorithm. -/
theorem build_parent_nodes_length {T : Type} (c : List (Node T)) (h : Hasher)
    (out : List (Node T)) (h2 : Hasher)
    (heq : build_parent_nodes c h = some (out, h2)) (hc : 2 ≤ c.length) :
    out.length = c.length - 1 ∧ h2.digest = h.digest := by
  rw [build_parent_nodes_eq] at heq
  rcases hb : build_level c h with _ | ⟨ps, h1⟩
  · rw [hb] at heq
    simp at heq
  · rw [hb] at heq
    have hlen := build_level_length hb
    have hdig := build_level_digest hb
    by_cases hgt : ps.length > 1
    · simp only [if_pos hgt] at heq
      rcases hrec : build_parent_nodes ps h1 with _ | ⟨out', h2'⟩
      · rw [hrec] at heq
        simp at heq
      · rw [hrec] at heq
        simp at heq
        have ih := build_parent_nodes_length ps h1 out' h2' hrec (by omega)
        constructor
        · rw [← heq.1]
          simp
          omega
        · rw [← heq.2, ih.2, hdig]
    · simp only [if_neg hgt] at heq
      simp at heq
      constructor
      · rw [← heq.1]
        omega
      · rw [← heq.2, hdig]
termination_by c.length
decreasing_by omega

/-- `build_parent_nodes` succeeds on every level whose length is a power
of two greater than one: `pairs[1]` is always in bounds. -/
theorem build_parent_nodes_isSome {T : Type} (c : List (Node T)) (h : Hasher)
    (k : Nat) (hk : 1 ≤ k) (hc : c.length = 2 ^ k) :
    (build_parent_nodes c h).isSome := by
  rw [build_parent_nodes_eq]
  have heven : c.length % 2 = 0 := by
    rcases Nat.exists_eq_add_of_le hk with ⟨k', rfl⟩
    have : 2 ^ (1 + k') = 2 * 2 ^ k' := by ring
    omega
  have hsome := build_level_isSome c h heven
  rcases hb : build_level c h with _ | ⟨ps, h1⟩
  · rw [hb] at hsome
    simp at hsome
  · have hlen := build_level_length hb
    by_cases hgt : ps.length > 1
    · simp only [if_pos hgt]
      have hps : ps.length = 2 ^ (k - 1) := by
        rcases Nat.exists_eq_add_of_le hk with ⟨k', hk'⟩
        have h2 : 2 ^ (1 + k') = 2 * 2 ^ k' := by ring
        rw [hk'] at hc
        have : ps.length = 2 ^ k' := by omega
        rw [this, hk']
        congr 1
        omega
      have hk1 : 1 ≤ k - 1 := by
        by_contra hcon
        have : k - 1 = 0 := by omega
        rw [this] at hps
        simp at hps
        omega
      have ih := build_parent_nodes_isSome ps h1 (k - 1) hk1 hps
      rcases hrec : build_parent_nodes ps h1 with _ | ⟨out', h2'⟩
      · rw [hrec] at ih
        simp at ih
      · rfl
    · simp only [if_neg hgt]
      rfl
termination_by c.length
decreasing_by
  have : 0 < ps.length := by omega
  omega

/-- Parent/child layout invariant of `build_parent_nodes`.  Appending the
output to the children, the node at flat position `p` (for `p` past the
children) combines the nodes at positions `2p - 2·|c|` and
`2p - 2·|c| + 1`, hashed left-then-right with the configured digest. -/
theorem build_parent_nodes_children {T : Type} (c : List (Node T)) (h : Hasher)
    (out : List (Node T)) (h2 : Hasher)
    (heq : build_parent_nodes c h = some (out, h2)) (hc : 2 ≤ c.length) :
    ∀ p, c.length ≤ p → p < c.length + out.length →
      ∃ l r, (c ++ out).get? (2 * p - 2 * c.length) = some l ∧
        (c ++ out).get? (2 * p - 2 * c.length + 1) = some r ∧
        (c ++ out).get? p = some (mkInternal h.digest l r) := by
  rw [build_parent_nodes_eq] at heq
  rcases hb : build_level c h with _ | ⟨ps, h1⟩
  · rw [hb] at heq
    simp at heq
  · rw [hb] at heq
    have hlen := build_level_length hb
    have hdig := build_level_digest hb
    by_cases hgt : ps.length > 1
    · simp only [if_pos hgt] at heq
      rcases hrec : build_parent_nodes ps h1 with _ | ⟨out', h2'⟩
      · rw [hrec] at heq
        simp at heq
      · rw [hrec] at heq
        simp at heq
        obtain ⟨hout, hh2⟩ := heq
        subst hout
        have hlen' := build_parent_nodes_length ps h1 out' h2' hrec (by omega)
        intro p hp1 hp2
        have hkey : ∀ i, (c ++ (ps ++ out')).get? (c.length + i) = (ps ++ out').get? i := by
          intro i
          rw [List.get?_append_right (by omega)]
          congr 1
          omega
        by_cases hcase : p < c.length + ps.length
        · -- parent inside the first constructed level
          have hj : p - c.length < ps.length := by omega
          have hlb : 2 * (p - c.length) < c.length := by omega
          have hrb : 2 * (p - c.length) + 1 < c.length := by omega
          refine ⟨c.get ⟨2 * (p - c.length), hlb⟩, c.get ⟨2 * (p - c.length) + 1, hrb⟩,
            ?_, ?_, ?_⟩
          · have e : 2 * p - 2 * c.length = 2 * (p - c.length) := by omega
            rw [e, List.get?_append hlb, List.get?_eq_get hlb]
          · have e : 2 * p - 2 * c.length + 1 = 2 * (p - c.length) + 1 := by omega
            rw [e, List.get?_append hrb, List.get?_eq_get hrb]
          · have hps := build_level_get hb (p - c.length) _ _
              (List.get?_eq_get hlb) (List.get?_eq_get hrb)
            have e : p = c.length + (p - c.length) := by omega
            conv_lhs => rw [e]
            rw [hkey, List.get?_append hj, hps]
        · -- parent inside the recursive output
          have ih := build_parent_nodes_children ps h1 out' h2' hrec (by omega)
          have hp'1 : ps.length ≤ p - c.length := by omega
          have hp'2 : p - c.length < ps.length + out'.length := by
            have := List.length_append ps out'
            omega
          obtain ⟨l, r, hl, hr, hnode⟩ := ih (p - c.length) hp'1 hp'2
          refine ⟨l, r, ?_, ?_, ?_⟩
          · have e : 2 * p - 2 * c.length
                = c.length + (2 * (p - c.length) - 2 * ps.length) := by omega
            rw [e, hkey]
            exact hl
          · have e : 2 * p - 2 * c.length + 1
                = c.length + (2 * (p - c.length) - 2 * ps.length + 1) := by omega
            rw [e, hkey]
            exact hr
          · have e : p = c.length + (p - c.length) := by omega
            rw [e, hkey, hnode, hdig]
    · simp only [if_neg hgt] at heq
      simp at heq
      obtain ⟨hout, hh2⟩ := heq
      subst hout
      intro p hp1 hp2
      have hps1 : ps.length = 1 := by omega
      have hc2 : c.length = 2 := by omega
      have hp : p = 2 := by omega
      have hlb : 0 < c.length := by omega
      have hrb : 1 < c.length := by omega
      refine ⟨c.get ⟨0, hlb⟩, c.get ⟨1, hrb⟩, ?_, ?_, ?_⟩
      · have e : 2 * p - 2 * c.length = 0 := by omega
        rw [e, List.get?_append hlb, List.get?_eq_get hlb]
      · have e : 2 * p - 2 * c.length + 1 = 1 := by omega
        rw [e, List.get?_append hrb, List.get?_eq_get hrb]
      · have hps := build_level_get hb 0 _ _
          (List.get?_eq_get hlb) (List.get?_eq_get hrb)
        have e : p = c.length + 0 := by omega
        conv_lhs => rw [e]
        have hkey : (c ++ ps).get? (c.length + 0) = ps.get? 0 := by
          rw [List.get?_append_right (by omega)]
          congr 1
          omega
        rw [hkey, hps]
termination_by c.length
decreasing_by omega

/-! ## Determinism: the nodes depend only on the digest algorithm -/

/-- Two level passes with the same digest algorithm produce the same
parent nodes, whatever the hashers' buffered state. -/
theorem build_level_det {T : Type} :
    ∀ {c : List (Node T)} {ha hb : Hasher} {psa psb : List (Node T)} {ha2 hb2 : Hasher},
      ha.digest = hb.digest →
      build_level c ha = some (psa, ha2) → build_level c hb = some (psb, hb2) →
      psa = psb
  | [], _, _, _, _, _, _ => by
    intro _ heqa heqb
    simp [build_level] at heqa heqb
    rw [heqa.1, heqb.1]
  | [_], _, _, _, _, _, _ => by
    intro _ heqa _
    simp [build_level] at heqa
  | l :: r :: rest, ha, hb, psa, psb, ha2, hb2 => by
    intro hdig heqa heqb
    simp only [build_level] at heqa heqb
    rcases hra : build_level rest (as_internal l r ha).2 with _ | ⟨psa', ha2'⟩
    · rw [hra] at heqa
      simp at heqa
    · rcases hrb : build_level rest (as_internal l r hb).2 with _ | ⟨psb', hb2'⟩
      · rw [hrb] at heqb
        simp at heqb
      · rw [hra] at heqa
        rw [hrb] at heqb
        simp at heqa heqb
        have ih := build_level_det (by simp [as_internal_snd_digest, hdig]) hra hrb
        rw [← heqa.1, ← heqb.1, as_internal_fst, as_internal_fst, hdig, ih]

/-- `build_parent_nodes` is deterministic in the digest algorithm. -/
theorem build_parent_nodes_det {T : Type} (c : List (Node T)) (ha hb : Hasher)
    (outa outb : List (Node T)) (ha2 hb2 : Hasher)
    (hdig : ha.digest = hb.digest)
    (heqa : build_parent_nodes c ha = some (outa, ha2))
    (heqb : build_parent_nodes c hb = some (outb, hb2)) :
    outa = outb := by
  rw [build_parent_nodes_eq] at heqa heqb
  rcases hba : build_level c ha with _ | ⟨psa, ha1⟩
  · rw [hba] at heqa
    simp at heqa
  · rcases hbb : build_level c hb with _ | ⟨psb, hb1⟩
    · rw [hbb] at heqb
      simp at heqb
    · rw [hba] at heqa
      rw [hbb] at heqb
      have hps : psa = psb := build_level_det hdig hba hbb
      subst hps
      have hdig1 : ha1.digest = hb1.digest := by
        rw [build_level_digest hba, build_level_digest hbb, hdig]
      have hlena := build_level_length hba
      by_cases hgt : psa.length > 1
      · simp only [if_pos hgt] at heqa heqb
        rcases hreca : build_parent_nodes psa ha1 with _ | ⟨outa', ha2'⟩
        · rw [hreca] at heqa
          simp at heqa
        · rcases hrecb : build_parent_nodes psa hb1 with _ | ⟨outb', hb2'⟩
          · rw [hrecb] at heqb
            simp at heqb
          · rw [hreca] at heqa
            rw [hrecb] at heqb
            simp at heqa heqb
            have ih := build_parent_nodes_det psa ha1 hb1 outa' outb' ha2' hb2'
              hdig1 hreca hrecb
            rw [← heqa.1, ← heqb.1, ih]
      · simp only [if_neg hgt] at heqa heqb
        simp at heqa heqb
        rw [← heqa.1, ← heqb.1]
termination_by c.length
decreasing_by omega

/-! ## Leaf construction and padding -/

/-- The leaf pass maps `mkLeaf` over the values and keeps the digest. -/
theorem build_leaves_spec {T : Type} (bytes : T → List Nat) :
    ∀ (vs : List T) (h : Hasher),
      (build_leaves bytes vs h).1 = vs.map (mkLeaf h.digest bytes) ∧
      (build_leaves bytes vs h).2.digest = h.digest
  | [], h => by simp [build_leaves]
  | v :: rest, h => by
    have ih := build_leaves_spec bytes rest (as_leaf bytes v h).2
    simp only [build_leaves, List.map]
    constructor
    · rw [ih.1]
      show mkLeaf h.digest bytes v :: _ = _
      congr 1
    · rw [ih.2]
      rfl

/-- Padding appends clones of the last element up to the next power of
two (a no-op when the length is already a power of two). -/
theorem padded_values_eq {T : Type} (vs : List T) (last : T)
    (hlast : vs.getLast? = some last) :
    padded_values vs
      = vs ++ List.replicate (next_power_of_two vs.length - vs.length) last := by
  rw [padded_values]
  by_cases hlt : vs.length < next_power_of_two vs.length
  · simp only [if_pos hlt, hlast]
  · simp only [if_neg hlt]
    have hge := npot_ge vs.length
    have : next_power_of_two vs.length - vs.length = 0 := by omega
    rw [this]
    simp

theorem padded_values_length {T : Type} (vs : List T) (hne : vs ≠ []) :
    (padded_values vs).length = next_power_of_two vs.length := by
  obtain ⟨last, hlast⟩ := Option.ne_none_iff_exists'.mp
    (mt List.getLast?_eq_none_iff.mp hne)
  rw [padded_values_eq vs last hlast]
  simp
  have := npot_ge vs.length
  omega

/-! ## Structure of a successful `from_leaves` -/

/-- Destructuring a successful build: the caller's vector ends up padded,
the first `next_power_of_two L` nodes are the leaves (in order), and the
remaining nodes are the successful parent construction over them. -/
theorem from_leaves_ok {T : Type} (bytes : T → List Nat) (values : List T)
    (h : Hasher) (t : MerkleTree T) (vs : List T)
    (heq : from_leaves bytes values h = some (Except.ok t, vs)) :
    values ≠ [] ∧ vs = padded_values values ∧
    ∃ parents h2,
      build_parent_nodes (vs.map (mkLeaf h.digest bytes))
          (build_leaves bytes vs h).2 = some (parents, h2) ∧
      t.nodes = vs.map (mkLeaf h.digest bytes) ++ parents ∧
      t.hasher = h2 := by
  rw [from_leaves] at heq
  by_cases hz : values.length = 0
  · rw [if_pos hz] at heq
    simp at heq
  · rw [if_neg hz] at heq
    simp only [] at heq
    rcases hbp : build_parent_nodes (build_leaves bytes (padded_values values) h).1
        (build_leaves bytes (padded_values values) h).2 with _ | ⟨parents, h2⟩
    · rw [hbp] at heq
      simp at heq
    · rw [hbp] at heq
      simp at heq
      obtain ⟨hok, hvs⟩ := heq
      subst hvs
      refine ⟨by simpa using hz, rfl, parents, h2, ?_, ?_, ?_⟩
      · rw [← (build_leaves_spec bytes (padded_values values) h).1]
        exact hbp
      · rw [← hok]
        simp [(build_leaves_spec bytes (padded_values values) h).1]
      · rw [← hok]

/-- A build over at least two values always succeeds. -/
theorem from_leaves_isSome {T : Type} (bytes : T → List Nat) (values : List T)
    (h : Hasher) (hlen : 2 ≤ values.length) :
    ∃ t vs, from_leaves bytes values h = some (Except.ok t, vs) := by
  have hne : values ≠ [] := by
    intro hcon
    rw [hcon] at hlen
    simp at hlen
  have hplen : (padded_values values).length = next_power_of_two values.length :=
    padded_values_length values hne
  obtain ⟨k, hk⟩ := npot_pow values.length
  have hge := npot_ge values.length
  have hk1 : 1 ≤ k := by
    by_contra hcon
    have : k = 0 := by omega
    rw [this] at hk
    simp at hk
    omega
  have hleaves : (build_leaves bytes (padded_values values) h).1.length = 2 ^ k := by
    rw [(build_leaves_spec bytes (padded_values values) h).1]
    simp [hplen, hk]
  have hsome := build_parent_nodes_isSome
    (build_leaves bytes (padded_values values) h).1
    (build_leaves bytes (padded_values values) h).2 k hk1 hleaves
  rw [from_leaves, if_neg (by omega)]
  simp only []
  rcases hbp : build_parent_nodes (build_leaves bytes (padded_values values) h).1
      (build_leaves bytes (padded_values values) h).2 with _ | ⟨parents, h2⟩
  · rw [hbp] at hsome
    simp at hsome
  · exact ⟨⟨h2, (build_leaves bytes (padded_values values) h).1 ++ parents⟩,
      padded_values values, rfl⟩

/-- A build over exactly one value hits the out-of-bounds `pairs[1]`:
the model returns `none` (the Rust code panics). -/
theorem from_leaves_one {T : Type} (bytes : T → List Nat) (v : T) (h : Hasher) :
    from_leaves bytes [v] h = none := by
  rw [from_leaves, if_neg (by simp)]
  simp only []
  have hpad : padded_values [v] = [v] := by
    rw [padded_values]
    simp [npot_one]
  rw [hpad]
  have : build_leaves bytes [v] h = ((as_leaf bytes v h).1 :: [], (as_leaf bytes v h).2) := rfl
  rw [this]
  rw [build_parent_nodes_eq]
  rfl

/-- The builder reports an error exactly on the empty input, with the
input vector untouched. -/
theorem from_leaves_error {T : Type} (bytes : T → List Nat) (values : List T)
    (h : Hasher) (e : String) (vs : List T) :
    from_leaves bytes values h = some (Except.error e, vs) ↔
      values = [] ∧ e = "Leaves cannot be empty" ∧ vs = [] := by
  constructor
  · intro heq
    rw [from_leaves] at heq
    by_cases hz : values.length = 0
    · rw [if_pos hz] at heq
      simp at heq
      have hnil : values = [] := by
        cases values with
        | nil => rfl
        | cons a rest => simp at hz
      exact ⟨hnil, heq.1.symm, by rw [← heq.2, hnil]⟩
    · rw [if_neg hz] at heq
      simp only [] at heq
      rcases hbp : build_parent_nodes (build_leaves bytes (padded_values values) h).1
          (build_leaves bytes (padded_values values) h).2 with _ | ⟨parents, h2⟩
      · rw [hbp] at heq
        simp at heq
      · rw [hbp] at heq
        simp at heq
  · intro ⟨hv, he, hvs⟩
    subst hv
    subst he
    subst hvs
    rw [from_leaves]
    simp

/-- A singleton level panics immediately (`pairs[1]` out of bounds). -/
theorem build_parent_nodes_singleton {T : Type} (x : Node T) (h : Hasher) :
    build_parent_nodes [x] h = none := by
  rw [build_parent_nodes_eq]
  rfl

/-- Lengths in a successful build: the padded vector has the next power
of two of the input length (which is at least `2`), and the node store
has `2 · next_power_of_two L - 1` entries. -/
theorem from_leaves_ok_len {T : Type} (bytes : T → List Nat) (values : List T)
    (h : Hasher) (t : MerkleTree T) (vs : List T)
    (heq : from_leaves bytes values h = some (Except.ok t, vs)) :
    2 ≤ next_power_of_two values.length ∧
    vs.length = next_power_of_two values.length ∧
    t.nodes.length = 2 * next_power_of_two values.length - 1 := by
  obtain ⟨hne, hvs, parents, h2, hbp, hnodes, hhasher⟩ :=
    from_leaves_ok bytes values h t vs heq
  have hvlen : vs.length = next_power_of_two values.length := by
    rw [hvs]
    exact padded_values_length values hne
  have h2le : 2 ≤ vs.length := by
    by_contra hcon
    have hvpos := npot_pos values.length
    have h1 : vs.length = 1 := by omega
    obtain ⟨x, hx⟩ := List.length_eq_one.mp h1
    rw [hx] at hbp
    simp only [List.map] at hbp
    rw [build_parent_nodes_singleton] at hbp
    simp at hbp
  have hmap : (vs.map (mkLeaf h.digest bytes)).length = vs.length := by simp
  have hplen := build_parent_nodes_length _ _ _ _ hbp (by omega)
  refine ⟨by omega, hvlen, ?_⟩
  rw [hnodes]
  simp only [List.length_append, hmap]
  omega

/-! ## Concrete instances used by witnesses -/

/-- A tiny deterministic digest for witnesses: every input hashes to
`"h"`. -/
def constDigest : List Nat → String := fun _ => "h"

/-- Witness value type: `Nat`, one byte per value. -/
def natBytes : Nat → List Nat := fun n => [n]

def someHasher : Hasher := ⟨constDigest, []⟩

/-- Same digest algorithm as `someHasher`, different buffered state. -/
def otherHasher : Hasher := ⟨constDigest, [1, 2, 3]⟩

/-- The tree built over `[0, 1]` with `constDigest`. -/
def treeTwo : MerkleTree Nat :=
  ⟨⟨constDigest, [104, 104]⟩, [⟨some 0, "h"⟩, ⟨some 1, "h"⟩, ⟨none, "h"⟩]⟩

/-- The tree built over `[0, 1, 2]` with `constDigest` (padded to four
leaves). -/
def treeThree : MerkleTree Nat :=
  ⟨⟨constDigest, [104, 104]⟩,
    [⟨some 0, "h"⟩, ⟨some 1, "h"⟩, ⟨some 2, "h"⟩, ⟨some 2, "h"⟩,
     ⟨none, "h"⟩, ⟨none, "h"⟩, ⟨none, "h"⟩]⟩

theorem eval_two : from_leaves natBytes [0, 1] someHasher
    = some (Except.ok treeTwo, [0, 1]) := by
  rw [from_leaves]
  simp only [padded_values, build_leaves]
  norm_num [npot_two]
  rw [build_parent_nodes_eq]
  rfl

theorem eval_two_alt : from_leaves natBytes [0, 1] otherHasher
    = some (Except.ok treeTwo, [0, 1]) := by
  rw [from_leaves]
  simp only [padded_values, build_leaves]
  norm_num [npot_two]
  rw [build_parent_nodes_eq]
  rfl

theorem eval_three : from_leaves natBytes [0, 1, 2] someHasher
    = some (Except.ok treeThree, [0, 1, 2, 2]) := by
  rw [from_leaves]
  simp only [padded_values, build_leaves]
  norm_num [npot_three]
  rw [build_parent_nodes_eq]
  norm_num [build_level, as_internal, Hasher.reset, Hasher.inputBytes,
    Hasher.result_str, strBytes, someHasher, natBytes, constDigest]
  rw [build_parent_nodes_eq]
  rfl

/-! ## Claims -/

/-- Claim C1, counterexample: on the non-empty input `[0]` (length 1)
the builder does not succeed — `build_parent_nodes` hits the
out-of-bounds `pairs[1]` (a panic, `none` in the model), so no node
store of size `2·next_pow2(1) - 1 = 1` is ever produced. -/
theorem c1_counterexample :
    ¬ ∃ t vs, from_leaves natBytes [0] someHasher = some (Except.ok t, vs) := by
  intro hcon
  obtain ⟨t, vs, hcon⟩ := hcon
  rw [from_leaves_one] at hcon
  exact Option.noConfusion hcon

/-- Claim C1 (amended to inputs of length at least two): the builder
succeeds and the node store has exactly `2·next_pow2(L) - 1` nodes,
where `next_pow2(L)` is the smallest power of two `≥ L`. -/
theorem c1_node_count {T : Type} (bytes : T → List Nat) (values : List T)
    (h : Hasher) (hlen : 2 ≤ values.length) :
    ∃ t vs, from_leaves bytes values h = some (Except.ok t, vs) ∧
      t.nodes.length = 2 * next_power_of_two values.length - 1 ∧
      (∃ k, next_power_of_two values.length = 2 ^ k) ∧
      values.length ≤ next_power_of_two values.length ∧
      (∀ m k, m = 2 ^ k → values.length ≤ m → next_power_of_two values.length ≤ m) := by
  obtain ⟨t, vs, heq⟩ := from_leaves_isSome bytes values h hlen
  obtain ⟨_, _, hnodes⟩ := from_leaves_ok_len bytes values h t vs heq
  refine ⟨t, vs, heq, hnodes, npot_pow _, npot_ge _, ?_⟩
  intro m k hm hle
  subst hm
  exact npot_min _ k hle

/-- Witness for C1's amended theorem at the concrete input `[0, 1, 2]`. -/
theorem c1_node_count_witness :
    ∃ t vs, from_leaves natBytes [0, 1, 2] someHasher = some (Except.ok t, vs) ∧
      t.nodes.length = 2 * next_power_of_two ([0, 1, 2] : List Nat).length - 1 ∧
      (∃ k, next_power_of_two ([0, 1, 2] : List Nat).length = 2 ^ k) ∧
      ([0, 1, 2] : List Nat).length ≤ next_power_of_two ([0, 1, 2] : List Nat).length ∧
      (∀ m k, m = 2 ^ k → ([0, 1, 2] : List Nat).length ≤ m →
        next_power_of_two ([0, 1, 2] : List Nat).length ≤ m) :=
  c1_node_count natBytes [0, 1, 2] someHasher (by norm_num)

/-- Claim C2, counterexample: `[7]` is non-empty, yet the builder
returns no constructed tree (it panics on `pairs[1]`), contradicting
"on every non-empty input it returns a constructed Tree". -/
theorem c2_counterexample :
    ¬ ∃ t vs, from_leaves natBytes [7] someHasher = some (Except.ok t, vs) := by
  intro hcon
  obtain ⟨t, vs, hcon⟩ := hcon
  rw [from_leaves_one] at hcon
  exact Option.noConfusion hcon

/-- Claim C2 (amended): the builder returns the `EmptyInput` error with
nothing constructed iff the input is empty; on inputs of length `≥ 2` it
returns a constructed tree; on inputs of length exactly `1` it returns
no value at all (the indexing panic). -/
theorem c2_build_result {T : Type} (bytes : T → List Nat) (values : List T)
    (h : Hasher) :
    (from_leaves bytes values h
        = some (Except.error "Leaves cannot be empty", values) ↔ values = []) ∧
    (2 ≤ values.length → ∃ t vs, from_leaves bytes values h = some (Except.ok t, vs)) ∧
    (values.length = 1 → from_leaves bytes values h = none) := by
  refine ⟨⟨?_, ?_⟩, from_leaves_isSome bytes values h, ?_⟩
  · intro heq
    exact ((from_leaves_error bytes values h _ values).mp heq).1
  · intro hv
    subst hv
    exact (from_leaves_error bytes [] h _ []).mpr ⟨rfl, rfl, rfl⟩
  · intro h1
    obtain ⟨v, hv⟩ := List.length_eq_one.mp h1
    subst hv
    exact from_leaves_one bytes v h

/-- Witness for C2's amended theorem: the three behaviours at concrete
inputs `[]`, `[0, 1]` and `[9]`. -/
theorem c2_build_result_witness :
    (from_leaves natBytes ([] : List Nat) someHasher
        = some (Except.error "Leaves cannot be empty", []) ↔ ([] : List Nat) = []) ∧
    (∃ t vs, from_leaves natBytes [0, 1] someHasher = some (Except.ok t, vs)) ∧
    from_leaves natBytes [9] someHasher = none :=
  ⟨(c2_build_result natBytes ([] : List Nat) someHasher).1,
   (c2_build_result natBytes [0, 1] someHasher).2.1 (by norm_num),
   (c2_build_result natBytes [9] someHasher).2.2 (by norm_num)⟩

/-- Claim C3: in every successfully constructed tree, the internal node
at position `p` combines the nodes at positions `2p - 2n` (left) and
`2p - 2n + 1` (right), `n` the number of leaves: it stores no value and
its hash is the digest of the left child's hex string bytes followed by
the right child's. -/
theorem c3_internal_hashes {T : Type} (bytes : T → List Nat) (values : List T)
    (h : Hasher) (t : MerkleTree T) (vs : List T) (p : Nat)
    (heq : from_leaves bytes values h = some (Except.ok t, vs))
    (hp1 : next_power_of_two values.length ≤ p)
    (hp2 : p < 2 * next_power_of_two values.length - 1) :
    ∃ l r,
      t.nodes.get? (2 * p - 2 * next_power_of_two values.length) = some l ∧
      t.nodes.get? (2 * p - 2 * next_power_of_two values.length + 1) = some r ∧
      t.nodes.get? p = some ⟨none, h.digest (strBytes l.hash ++ strBytes r.hash)⟩ := by
  obtain ⟨hne, hvs, parents, h2, hbp, hnodes, hhasher⟩ :=
    from_leaves_ok bytes values h t vs heq
  obtain ⟨h2np, hvlen, htlen⟩ := from_leaves_ok_len bytes values h t vs heq
  have hllen : (vs.map (mkLeaf h.digest bytes)).length
      = next_power_of_two values.length := by simp [hvlen]
  have hdig : (build_leaves bytes vs h).2.digest = h.digest :=
    (build_leaves_spec bytes vs h).2
  have hplen := build_parent_nodes_length _ _ _ _ hbp (by omega)
  have hinv := build_parent_nodes_children (vs.map (mkLeaf h.digest bytes))
    (build_leaves bytes vs h).2 parents h2 hbp (by omega)
  obtain ⟨l, r, hl, hr, hnode⟩ := hinv p (by omega) (by omega)
  rw [hdig] at hnode
  rw [hnodes, ← hllen]
  exact ⟨l, r, hl, hr, hnode⟩

/-- Witness for C3: the root of the two-leaf tree over `[0, 1]`. -/
theorem c3_internal_hashes_witness :
    from_leaves natBytes [0, 1] someHasher = some (Except.ok treeTwo, [0, 1]) ∧
    ∃ l r,
      treeTwo.nodes.get? (2 * 2 - 2 * next_power_of_two ([0, 1] : List Nat).length)
        = some l ∧
      treeTwo.nodes.get? (2 * 2 - 2 * next_power_of_two ([0, 1] : List Nat).length + 1)
        = some r ∧
      treeTwo.nodes.get? 2
        = some ⟨none, someHasher.digest (strBytes l.hash ++ strBytes r.hash)⟩ :=
  ⟨eval_two,
   c3_internal_hashes natBytes [0, 1] someHasher treeTwo [0, 1] 2 eval_two
     (by norm_num [npot_two]) (by norm_num [npot_two])⟩

/-- Claim C4: in every successfully constructed tree over an input of
length `L`, node `i < L` holds value `input[i]` and hash
`H(bytes(input[i]))`; when `L` is a power of two no padding happens and
the vector is returned unchanged. -/
theorem c4_leaf_nodes {T : Type} (bytes : T → List Nat) (values : List T)
    (h : Hasher) (t : MerkleTree T) (vs : List T)
    (heq : from_leaves bytes values h = some (Except.ok t, vs)) :
    (∀ i (hi : i < values.length),
      t.nodes.get? i = some ⟨some (values.get ⟨i, hi⟩),
        h.digest (bytes (values.get ⟨i, hi⟩))⟩) ∧
    ((∃ k, values.length = 2 ^ k) → vs = values) := by
  obtain ⟨hne, hvs, parents, h2, hbp, hnodes, hhasher⟩ :=
    from_leaves_ok bytes values h t vs heq
  obtain ⟨h2np, hvlen, htlen⟩ := from_leaves_ok_len bytes values h t vs heq
  obtain ⟨last, hlast⟩ := Option.ne_none_iff_exists'.mp
    (mt List.getLast?_eq_none_iff.mp hne)
  have hpad := padded_values_eq values last hlast
  have hge := npot_ge values.length
  constructor
  · intro i hi
    have hiv : i < vs.length := by omega
    rw [hnodes, List.get?_append (by simpa using hiv), List.get?_map]
    have hvsi : vs.get? i = some (values.get ⟨i, hi⟩) := by
      rw [hvs, hpad, List.get?_append hi, List.get?_eq_get hi]
    rw [hvsi]
    rfl
  · intro hpow
    obtain ⟨k, hk⟩ := hpow
    have hself : next_power_of_two values.length = values.length := by
      rw [hk]
      exact npot_pow_self k
    rw [hvs, hpad, hself]
    simp

/-- Witness for C4 at `[0, 1]` (length already a power of two). -/
theorem c4_leaf_nodes_witness :
    treeTwo.nodes.get? 0 = some ⟨some 0, someHasher.digest (natBytes 0)⟩ ∧
    treeTwo.nodes.get? 1 = some ⟨some 1, someHasher.digest (natBytes 1)⟩ ∧
    ([0, 1] : List Nat) = [0, 1] := by
  have hmain := c4_leaf_nodes natBytes [0, 1] someHasher treeTwo [0, 1] eval_two
  exact ⟨hmain.1 0 (by norm_num), hmain.1 1 (by norm_num),
    hmain.2 ⟨1, by norm_num⟩⟩

/-- Claim C5: when `L` is not a power of two, the builder appends
`next_pow2(L) - L` clones of the last original element (a strictly
positive number of them), and every padded leaf `L ≤ i < next_pow2(L)`
holds that clone with its hash computed exactly as a genuine leaf. -/
theorem c5_padding {T : Type} (bytes : T → List Nat) (values : List T)
    (h : Hasher) (t : MerkleTree T) (vs : List T) (last : T)
    (heq : from_leaves bytes values h = some (Except.ok t, vs))
    (hlast : values.getLast? = some last)
    (hnp : ∀ k, values.length ≠ 2 ^ k) :
    vs = values
      ++ List.replicate (next_power_of_two values.length - values.length) last ∧
    values.length < next_power_of_two values.length ∧
    (∀ i, values.length ≤ i → i < next_power_of_two values.length →
      t.nodes.get? i = some ⟨some last, h.digest (bytes last)⟩) := by
  obtain ⟨hne, hvs, parents, h2, hbp, hnodes, hhasher⟩ :=
    from_leaves_ok bytes values h t vs heq
  obtain ⟨h2np, hvlen, htlen⟩ := from_leaves_ok_len bytes values h t vs heq
  have hpad := padded_values_eq values last hlast
  have hge := npot_ge values.length
  have hlt : values.length < next_power_of_two values.length := by
    rcases Nat.lt_or_ge values.length (next_power_of_two values.length) with hx | hx
    · exact hx
    · obtain ⟨k, hk⟩ := npot_pow values.length
      exact absurd (by omega : values.length = 2 ^ k) (hnp k)
  refine ⟨by rw [hvs, hpad], hlt, ?_⟩
  intro i hi1 hi2
  have hiv : i < vs.length := by omega
  rw [hnodes, List.get?_append (by simpa using hiv), List.get?_map]
  have hvsi : vs.get? i = some last := by
    rw [hvs, hpad, List.get?_append_right hi1, List.get?_eq_getElem?,
      List.getElem?_replicate_of_lt (by omega)]
  rw [hvsi]
  rfl

/-- Witness for C5 at `[0, 1, 2]`: padded to four leaves with clones
of `2`. -/
theorem c5_padding_witness :
    ([0, 1, 2, 2] : List Nat) = [0, 1, 2]
      ++ List.replicate (next_power_of_two ([0, 1, 2] : List Nat).length
          - ([0, 1, 2] : List Nat).length) 2 ∧
    ([0, 1, 2] : List Nat).length < next_power_of_two ([0, 1, 2] : List Nat).length ∧
    (∀ i, ([0, 1, 2] : List Nat).length ≤ i →
      i < next_power_of_two ([0, 1, 2] : List Nat).length →
      treeThree.nodes.get? i = some ⟨some 2, someHasher.digest (natBytes 2)⟩) :=
  c5_padding natBytes [0, 1, 2] someHasher treeThree [0, 1, 2, 2] 2 eval_three rfl
    (by
      intro k
      rcases k with _ | _ | n
      · norm_num
      · norm_num
      · have h4 : 2 ^ (n + 2) = 4 * 2 ^ n := by ring
        have := Nat.two_pow_pos n
        simp only [List.length_cons, List.length_nil]
        omega)

/-- `root` on an arbitrary tree value: error exactly on the empty store,
and `ok nd` exactly when `nd` is the last node. -/
theorem root_cases {T : Type} (s : MerkleTree T) :
    ((∃ e, s.root = Except.error e) ↔ s.nodes = []) ∧
    (∀ nd, s.root = Except.ok nd ↔ s.nodes.getLast? = some nd) := by
  rcases hg : s.nodes.getLast? with _ | nd0
  · have hnil : s.nodes = [] := List.getLast?_eq_none_iff.mp hg
    constructor
    · simp [MerkleTree.root, hg, hnil]
    · intro nd
      simp [MerkleTree.root, hg]
  · have hne : s.nodes ≠ [] := by
      intro hcon
      rw [hcon] at hg
      simp at hg
    constructor
    · simp [MerkleTree.root, hg, hne]
    · intro nd
      simp [MerkleTree.root, hg]

/-- Claim C6: `root()` returns the last element of the node store and
errs exactly on an empty store; every tree a successful `from_leaves`
produces has a root, namely its final node. -/
theorem c6_root {T : Type} (bytes : T → List Nat) (values : List T)
    (h : Hasher) (t : MerkleTree T) (vs : List T)
    (heq : from_leaves bytes values h = some (Except.ok t, vs)) :
    (∀ s : MerkleTree T,
      ((∃ e, s.root = Except.error e) ↔ s.nodes = []) ∧
      (∀ nd, s.root = Except.ok nd ↔ s.nodes.getLast? = some nd)) ∧
    (∃ nd, t.nodes.getLast? = some nd ∧ t.root = Except.ok nd) := by
  refine ⟨fun s => root_cases s, ?_⟩
  obtain ⟨h2np, hvlen, htlen⟩ := from_leaves_ok_len bytes values h t vs heq
  have htne : t.nodes ≠ [] := by
    intro hcon
    rw [hcon] at htlen
    simp at htlen
    omega
  obtain ⟨nd, hnd⟩ := Option.ne_none_iff_exists'.mp
    (mt List.getLast?_eq_none_iff.mp htne)
  exact ⟨nd, hnd, ((root_cases t).2 nd).mpr hnd⟩

/-- Witness for C6 on the tree over `[0, 1]`. -/
theorem c6_root_witness :
    (∀ s : MerkleTree Nat,
      ((∃ e, s.root = Except.error e) ↔ s.nodes = []) ∧
      (∀ nd, s.root = Except.ok nd ↔ s.nodes.getLast? = some nd)) ∧
    (∃ nd, treeTwo.nodes.getLast? = some nd ∧ treeTwo.root = Except.ok nd) :=
  c6_root natBytes [0, 1] someHasher treeTwo [0, 1] eval_two

/-- Claim C7: the builder is deterministic.  Two runs over the same
value sequence with hashers running the same digest algorithm (whatever
their buffered state) construct trees with identical nodes — in
particular identical hashes at every position — and identical final
vectors. -/
theorem c7_deterministic {T : Type} (bytes : T → List Nat) (values : List T)
    (h1 h2 : Hasher) (t1 t2 : MerkleTree T) (vs1 vs2 : List T)
    (hdig : h1.digest = h2.digest)
    (heq1 : from_leaves bytes values h1 = some (Except.ok t1, vs1))
    (heq2 : from_leaves bytes values h2 = some (Except.ok t2, vs2)) :
    t1.nodes = t2.nodes ∧ vs1 = vs2 := by
  obtain ⟨hne1, hvs1, p1, g1, hbp1, hn1, hh1⟩ :=
    from_leaves_ok bytes values h1 t1 vs1 heq1
  obtain ⟨hne2, hvs2, p2, g2, hbp2, hn2, hh2⟩ :=
    from_leaves_ok bytes values h2 t2 vs2 heq2
  have hvs : vs2 = vs1 := by rw [hvs1, hvs2]
  subst hvs
  have hleaves : vs2.map (mkLeaf h2.digest bytes) = vs2.map (mkLeaf h1.digest bytes) := by
    rw [hdig]
  rw [hleaves] at hbp2
  have hdigl : (build_leaves bytes vs2 h1).2.digest
      = (build_leaves bytes vs2 h2).2.digest := by
    rw [(build_leaves_spec bytes vs2 h1).2, (build_leaves_spec bytes vs2 h2).2, hdig]
  have hp : p1 = p2 :=
    build_parent_nodes_det (vs2.map (mkLeaf h1.digest bytes))
      (build_leaves bytes vs2 h1).2 (build_leaves bytes vs2 h2).2
      p1 p2 g1 g2 hdigl hbp1 hbp2
  refine ⟨?_, rfl⟩
  rw [hn1, hn2, hleaves, hp]

/-- Witness for C7: `someHasher` and `otherHasher` share the digest
algorithm but have different buffered state; the trees coincide. -/
theorem c7_deterministic_witness :
    treeTwo.nodes = treeTwo.nodes ∧ ([0, 1] : List Nat) = [0, 1] :=
  c7_deterministic natBytes [0, 1] someHasher otherHasher treeTwo treeTwo
    [0, 1] [0, 1] rfl eval_two eval_two_alt

/-- Claim C8: every level `build_parent_nodes` sees has a power-of-two
length greater than one, so the `pairs[0]`/`pairs[1]` accesses stay in
bounds: the construction never panics on such levels, and `from_leaves`
never panics on inputs of length at least two. -/
theorem c8_no_panic {T : Type} (bytes : T → List Nat) :
    (∀ (c : List (Node T)) (h : Hasher) (k : Nat), 1 ≤ k → c.length = 2 ^ k →
      (build_parent_nodes c h).isSome) ∧
    (∀ (values : List T) (h : Hasher), 2 ≤ values.length →
      (from_leaves bytes values h).isSome) := by
  refine ⟨fun c h k hk hc => build_parent_nodes_isSome c h k hk hc, ?_⟩
  intro values h hlen
  obtain ⟨t, vs, heq⟩ := from_leaves_isSome bytes values h hlen
  rw [heq]
  rfl

/-- Witness for C8 at a two-node level and the input `[0, 1, 2]`. -/
theorem c8_no_panic_witness :
    (build_parent_nodes [(⟨some 0, "h"⟩ : Node Nat), ⟨some 1, "h"⟩] someHasher).isSome ∧
    (from_leaves natBytes [0, 1, 2] someHasher).isSome :=
  ⟨(c8_no_panic natBytes).1 [⟨some 0, "h"⟩, ⟨some 1, "h"⟩] someHasher 1
      (by norm_num) (by norm_num),
   (c8_no_panic natBytes).2 [0, 1, 2] someHasher (by norm_num)⟩

/-- Claim C9: each successful level pass produces `⌈len/2⌉` parents,
strictly fewer than `len` whenever `len ≥ 2` — the recursion's measure
decreases — and `from_leaves` is total (and successful) on every input
of length at least two. -/
theorem c9_terminates {T : Type} (bytes : T → List Nat) :
    (∀ (c : List (Node T)) (h : Hasher) (ps : List (Node T)) (h2 : Hasher),
      build_level c h = some (ps, h2) →
        ps.length = (c.length + 1) / 2 ∧ (2 ≤ c.length → ps.length < c.length)) ∧
    (∀ (values : List T) (h : Hasher), 2 ≤ values.length →
      ∃ t vs, from_leaves bytes values h = some (Except.ok t, vs)) := by
  constructor
  · intro c h ps h2 heq
    have := build_level_length heq
    exact ⟨by omega, by omega⟩
  · intro values h hlen
    exact from_leaves_isSome bytes values h hlen

/-- Witness for C9: one level pass over two nodes, and the build over
`[0, 1]`. -/
theorem c9_terminates_witness :
    (([(⟨none, "h"⟩ : Node Nat)]).length
        = (([⟨some 0, "h"⟩, ⟨some 1, "h"⟩] : List (Node Nat)).length + 1) / 2 ∧
      (2 ≤ ([⟨some 0, "h"⟩, ⟨some 1, "h"⟩] : List (Node Nat)).length →
        ([(⟨none, "h"⟩ : Node Nat)]).length
          < ([⟨some 0, "h"⟩, ⟨some 1, "h"⟩] : List (Node Nat)).length)) ∧
    (∃ t vs, from_leaves natBytes [0, 1] someHasher = some (Except.ok t, vs)) :=
  ⟨(c9_terminates natBytes).1 [⟨some 0, "h"⟩, ⟨some 1, "h"⟩] someHasher
      [⟨none, "h"⟩] ⟨constDigest, [104, 104]⟩ rfl,
   (c9_terminates natBytes).2 [0, 1] someHasher (by norm_num)⟩

/-- Claim C10: after a successful build on a vector of length `L`, the
caller's vector has length `next_pow2(L)`, its first `L` elements are
unchanged, and every appended slot holds a clone of the original last
element; on the empty-input error the vector is returned untouched. -/
theorem c10_frame {T : Type} (bytes : T → List Nat) (values : List T) (h : Hasher) :
    (∀ (t : MerkleTree T) (vs : List T),
      from_leaves bytes values h = some (Except.ok t, vs) →
        vs.length = next_power_of_two values.length ∧
        vs.take values.length = values ∧
        (∀ i, values.length ≤ i → i < vs.length → vs.get? i = values.getLast?)) ∧
    (values = [] →
      from_leaves bytes values h
        = some (Except.error "Leaves cannot be empty", values)) := by
  constructor
  · intro t vs heq
    obtain ⟨hne, hvs, parents, h2, hbp, hnodes, hhasher⟩ :=
      from_leaves_ok bytes values h t vs heq
    obtain ⟨h2np, hvlen, htlen⟩ := from_leaves_ok_len bytes values h t vs heq
    obtain ⟨last, hlast⟩ := Option.ne_none_iff_exists'.mp
      (mt List.getLast?_eq_none_iff.mp hne)
    have hpad := padded_values_eq values last hlast
    refine ⟨hvlen, ?_, ?_⟩
    · rw [hvs, hpad, List.take_left]
    · intro i hi1 hi2
      rw [hvs, hpad, List.get?_append_right hi1, List.get?_eq_getElem?,
        List.getElem?_replicate_of_lt (by omega), hlast]
  · intro hv
    subst hv
    rw [from_leaves]
    simp

/-- Witness for C10: the success frame at `[0, 1, 2]` and the error
frame at `[]`. -/
theorem c10_frame_witness :
    (([0, 1, 2, 2] : List Nat).length = next_power_of_two ([0, 1, 2] : List Nat).length ∧
      ([0, 1, 2, 2] : List Nat).take ([0, 1, 2] : List Nat).length = [0, 1, 2] ∧
      (∀ i, ([0, 1, 2] : List Nat).length ≤ i → i < ([0, 1, 2, 2] : List Nat).length →
        ([0, 1, 2, 2] : List Nat).get? i = ([0, 1, 2] : List Nat).getLast?)) ∧
    from_leaves natBytes ([] : List Nat) someHasher
      = some (Except.error "Leaves cannot be empty", ([] : List Nat)) :=
  ⟨(c10_frame natBytes [0, 1, 2] someHasher).1 treeThree [0, 1, 2, 2] eval_three,
   (c10_frame natBytes ([] : List Nat) someHasher).2 rfl⟩
